import Mathlib

/-!
Verification of the command-construction core of the vscode-chromium-test
extension (`src/extension.ts` and its two earlier revisions).

The extension's logic is string templating over Node's posix `path` module
(`path.join`, `path.relative`, `path.extname`, `path.sep = "/"`).
We embed those path operations over `List Char`, following the algorithms of
Node's `path.posix` implementation:

* `splitSlash` splits a path into segments at each slash;
* `normStep` / `normComps` model `normalizeString` (segment normalization:
  empty and `.` segments are dropped, `..` pops the previous real segment,
  and, when `allowAboveRoot` is set, unmatched `..` segments survive at the
  front); the accumulator is kept in reverse order and reversed at the end;
* `normalizeL` models `posix.normalize` (absoluteness and a trailing slash
  are preserved);
* `joinL` models `posix.join` (filter out empty arguments, concatenate with
  slashes, normalize);
* `resolveL` models `posix.resolve` for a single argument, with the process
  current working directory `cwd` passed explicitly (Node reads it from
  `process.cwd()`);
* `relativeL` models `posix.relative`: both arguments are resolved and the
  answer is built from `..` segments for the untaken part of `from` plus the
  untaken part of `to`;
* `extnameL` models `posix.extname`: the extension of the last path segment
  (trailing slashes ignored), empty when the segment has no dot, when its
  only dot is its first character, or when the segment is `..`.
-/

def splitSlash : List Char → List (List Char)
  | [] => [[]]
  | c :: rest =>
    match splitSlash rest with
    | [] => [[c]]
    | g :: gs => if c = '/' then [] :: g :: gs else (c :: g) :: gs

def joinSlash : List (List Char) → List Char
  | [] => []
  | [g] => g
  | g :: g2 :: gs => g ++ '/' :: joinSlash (g2 :: gs)

/-- One step of Node's `normalizeString`: the accumulator holds the output
segments in reverse order. -/
def normStep (allow : Bool) (acc : List (List Char)) (g : List Char) : List (List Char) :=
  if g = [] ∨ g = ['.'] then acc
  else if g = ['.', '.'] then
    match acc with
    | [] => if allow then [g] else []
    | h :: t => if h = ['.', '.'] then (if allow then g :: acc else acc) else t
  else g :: acc

def normComps (allow : Bool) (gs : List (List Char)) : List (List Char) :=
  (gs.foldl (normStep allow) []).reverse

def isAbsL (s : List Char) : Bool :=
  match s with
  | [] => false
  | c :: _ => c == '/'

def hasTrailSlash (s : List Char) : Bool :=
  match s.getLast? with
  | none => false
  | some c => c == '/'

/-- Node `posix.normalize`. -/
def normalizeL (s : List Char) : List Char :=
  let abs := isAbsL s
  let trail := hasTrailSlash s
  let core := joinSlash (normComps (!abs) (splitSlash s))
  if core = [] then (if abs then ['/'] else if trail then ['.', '/'] else ['.'])
  else ((if abs then '/' :: core else core) ++ (if trail then ['/'] else []))

/-- Node `posix.join`: drop empty arguments, concatenate with `/`,
normalize; all-empty input gives `.`. -/
def joinL (parts : List (List Char)) : List Char :=
  let joined := joinSlash (parts.filter (fun g => g ≠ []))
  if joined = [] then ['.'] else normalizeL joined

/-- Node `posix.resolve` applied to one argument, with the process working
directory passed explicitly. -/
def resolveL (cwd s : List Char) : List Char :=
  let combined := if isAbsL s then s else if s = [] then cwd else cwd ++ '/' :: s
  let abs := isAbsL s || isAbsL cwd
  let core := joinSlash (normComps (!abs) (splitSlash combined))
  if abs then '/' :: core else if core = [] then ['.'] else core

def commonPrefixLen : List (List Char) → List (List Char) → Nat
  | a :: as, b :: bs => if a = b then commonPrefixLen as bs + 1 else 0
  | _, _ => 0

/-- Node `posix.relative`, with the working directory passed explicitly. -/
def relativeL (cwd f t : List Char) : List Char :=
  if f = t then []
  else
    let fr := resolveL cwd f
    let tr := resolveL cwd t
    if fr = tr then []
    else
      let fc := (splitSlash fr).filter (fun g => g ≠ [])
      let tc := (splitSlash tr).filter (fun g => g ≠ [])
      let k := commonPrefixLen fc tc
      joinSlash (List.replicate (fc.length - k) ['.', '.'] ++ tc.drop k)

def dropTrailSlashes (s : List Char) : List Char :=
  (s.reverse.dropWhile (fun c => c = '/')).reverse

def lastSeg (s : List Char) : List Char :=
  ((dropTrailSlashes s).reverse.takeWhile (fun c => c ≠ '/')).reverse

/-- Node `posix.extname`. -/
def extnameL (p : List Char) : List Char :=
  let b := lastSeg p
  if b = ['.', '.'] then []
  else
    let rev := b.reverse
    let afterDot := rev.takeWhile (fun c => c ≠ '.')
    if afterDot.length = rev.length then []
    else if afterDot.length + 1 = rev.length then []
    else '.' :: afterDot.reverse

/-! String-level wrappers for the path operations. -/

def extname (p : String) : String := (extnameL p.toList).asString

def normalizeStr (s : String) : String := (normalizeL s.toList).asString

def pathJoin (parts : List String) : String := (joinL (parts.map String.toList)).asString

/-- `array.join(path.sep)` from the earliest revision: plain concatenation
with slashes, no normalization and no filtering. -/
def sepJoin (parts : List String) : String := (joinSlash (parts.map String.toList)).asString

def pathRelative (cwd f t : String) : String :=
  (relativeL cwd.toList f.toList t.toList).asString

/-!
The manager and its commands, translated from `src/extension.ts`
(class `ChromiumTestManager`, lines 97-159).
-/

structure ChromiumTestManager where
  rootDir : String
  compileTarget : String
deriving DecidableEq

def getCompileCommand (m : ChromiumTestManager) (target_binary : String) : String :=
  "autoninja -C out/" ++ m.compileTarget ++ " " ++ target_binary

/-- `getWebTestCommand` from `src/extension.ts`: throws (modelled as
`Except.error`) when the extension is not `.html` or `.php`; otherwise
returns the run_web_tests invocation with the test path made relative to
`rootDir/third_party/blink/web_tests`.  The working directory parameter
feeds `path.relative`. -/
def getWebTestCommand (cwd : String) (m : ChromiumTestManager) (file_path : String) :
    Except String String :=
  if ([".html", ".php"].contains (extname file_path)) = false then
    .error ("Wrong extension(" ++ extname file_path ++ ") for web test. Expect .html or .php.")
  else
    let web_test_path := pathJoin [m.rootDir, "third_party", "blink", "web_tests"]
    let test_script_path := pathJoin ["third_party", "blink", "tools", "run_web_tests.py"]
    let test_path := pathRelative cwd web_test_path file_path
    .ok (test_script_path ++ " -t " ++ m.compileTarget ++ " " ++ test_path)

def getCppTestCommand (m : ChromiumTestManager) (test_executable test_name : String) : String :=
  pathJoin [m.rootDir, "out", m.compileTarget, test_executable]
    ++ " --gtest_filter=" ++ test_name

/-- `getCurrentFilePath`: throws when there is no active editor; the editor
state is the optional file name of the active document. -/
def getCurrentFilePath (activeEditor : Option String) : Except String String :=
  match activeEditor with
  | none => .error "No active editor"
  | some f => .ok f

/-- `getTestCommand` from `src/extension.ts`: compile command for
content_shell, then the web-test command for the currently open file. -/
def getTestCommand (cwd : String) (activeEditor : Option String)
    (m : ChromiumTestManager) : Except String String := do
  let f ← getCurrentFilePath activeEditor
  let w ← getWebTestCommand cwd m f
  pure (getCompileCommand m "content_shell" ++ " && " ++ w)

/-- `getWebTestCommand` from the earliest revision (part_000): path pieces
joined with `array.join(path.sep)` instead of `path.join`, and no extension
check. -/
def getWebTestCommandV0 (cwd : String) (m : ChromiumTestManager) (file_path : String) : String :=
  let web_test_path := sepJoin [m.rootDir, "third_party", "blink", "web_tests"]
  let test_script_path := sepJoin ["third_party", "blink", "tools", "run_web_tests.py"]
  let test_path := pathRelative cwd web_test_path file_path
  test_script_path ++ " -t " ++ m.compileTarget ++ " " ++ test_path

/-- `getBrowserTestCommand` (part_000 / part_002): a stub returning "". -/
def getBrowserTestCommand (m : ChromiumTestManager) (file_path : String) : String :=
  ""

/-- `wrapException` from `src/extension.ts`: runs the inner command inside
try/catch; a thrown value is logged instead of propagating.  The inner
command's outcome is a value of `Except String Unit`; the wrapper's own
outcome carries the list of log messages it emitted. -/
def wrapException (f : Except String Unit) : Except String (Unit × List String) :=
  match f with
  | .ok u => .ok (u, [])
  | .error e => .ok ((), ["vscode-chromium-test error: " ++ e])

/-- `wrap_exception` from the intermediate revision (part_001); the log
message lacks the word "error". -/
def wrap_exception (f : Except String Unit) : Except String (Unit × List String) :=
  match f with
  | .ok u => .ok (u, [])
  | .error e => .ok ((), ["vscode-chromium-test: " ++ e])

/-! State-passing forms of the manager methods.  None of the TypeScript
method bodies assigns to `this.rootDir` or `this.compileTarget`, so the
state-passing translation returns the receiver unchanged alongside the
result (also on the throwing paths, which abort before any write). -/

def getCompileCommandS (m : ChromiumTestManager) (b : String) :
    String × ChromiumTestManager :=
  (getCompileCommand m b, m)

def getWebTestCommandS (cwd : String) (m : ChromiumTestManager) (f : String) :
    Except String String × ChromiumTestManager :=
  (getWebTestCommand cwd m f, m)

def getCppTestCommandS (m : ChromiumTestManager) (e t : String) :
    String × ChromiumTestManager :=
  (getCppTestCommand m e t, m)

def getTestCommandS (cwd : String) (activeEditor : Option String) (m : ChromiumTestManager) :
    Except String String × ChromiumTestManager :=
  (getTestCommand cwd activeEditor m, m)

def isOkB {α β : Type} : Except α β → Bool
  | .ok _ => true
  | .error _ => false

def okStr : Except String String → String
  | .ok s => s
  | .error _ => ""

theorem extname_check1 : extname "index.html" = ".html" := by decide
theorem extname_check2 : extname "/tests/.html" = "" := by decide
theorem extname_check3 : extname "a.b/c" = "" := by decide
theorem extname_check4 : extname "x/a.html/" = ".html" := by decide
theorem extname_check5 : extname ".." = "" := by decide
theorem extname_check6 : extname "a.." = "." := by decide
theorem normalize_check1 : normalizeStr "a//b/./c/../d/" = "a/b/d/" := by decide
theorem normalize_check2 : normalizeStr "" = "." := by decide
theorem normalize_check3 : normalizeStr "/../a" = "/a" := by decide
theorem join_check1 : pathJoin ["/c/src", "third_party", "blink", "web_tests"] = "/c/src/third_party/blink/web_tests" := by decide
theorem relative_check1 : pathRelative "/" "/a/b" "/a/c/d.html" = "../c/d.html" := by decide
theorem relative_check2 : pathRelative "/x" "src/a" "/q.html" = "../../../q.html" := by decide
theorem command_check1 : okStr (getWebTestCommand "/" ⟨"/c/src", "Default"⟩ "/c/src/third_party/blink/web_tests/a/b.html") = "third_party/blink/tools/run_web_tests.py -t Default a/b.html" := by decide

/-! ### Lemmas about `splitSlash` and `joinSlash` -/

theorem splitSlash_ne_nil (s : List Char) : splitSlash s ≠ [] := by
  induction s with
  | nil => simp [splitSlash]
  | cons c rest ih =>
    unfold splitSlash
    cases h : splitSlash rest with
    | nil => simp
    | cons g gs => by_cases hc : c = '/' <;> simp [hc]

theorem splitSlash_cons_slash (rest : List Char) :
    splitSlash ('/' :: rest) = [] :: splitSlash rest := by
  cases h : splitSlash rest with
  | nil => exact absurd h (splitSlash_ne_nil rest)
  | cons g gs => simp [splitSlash, h]

theorem splitSlash_append (a b : List Char) :
    splitSlash (a ++ '/' :: b) = splitSlash a ++ splitSlash b := by
  induction a with
  | nil =>
    rw [List.nil_append, splitSlash_cons_slash]
    rfl
  | cons c a ih =>
    cases h1 : splitSlash (a ++ '/' :: b) with
    | nil => exact absurd h1 (splitSlash_ne_nil _)
    | cons g gs =>
      cases h2 : splitSlash a with
      | nil => exact absurd h2 (splitSlash_ne_nil a)
      | cons g2 gs2 =>
        have ihe : g :: gs = g2 :: (gs2 ++ splitSlash b) := by
          rw [← h1, ih, h2]; rfl
        injection ihe with e1 e2
        subst e1; subst e2
        by_cases hc : c = '/' <;>
          simp [splitSlash, h1, h2, hc]

theorem splitSlash_of_noslash (g : List Char) (h : '/' ∉ g) : splitSlash g = [g] := by
  induction g with
  | nil => rfl
  | cons c g ih =>
    have hc : c ≠ '/' := fun e => h (e ▸ List.mem_cons_self c g)
    have hg : '/' ∉ g := fun m => h (List.mem_cons_of_mem c m)
    simp [splitSlash, ih hg, hc]

theorem splitSlash_mem_noslash (s : List Char) : ∀ g ∈ splitSlash s, '/' ∉ g := by
  induction s with
  | nil =>
    intro g hg
    simp [splitSlash] at hg
    simp [hg]
  | cons c rest ih =>
    intro g hg
    by_cases hc : c = '/'
    · subst hc
      rw [splitSlash_cons_slash] at hg
      rcases List.mem_cons.mp hg with h | h
      · simp [h]
      · exact ih g h
    · cases h2 : splitSlash rest with
      | nil => exact absurd h2 (splitSlash_ne_nil rest)
      | cons g2 gs2 =>
        simp only [splitSlash, h2, hc, if_false, if_neg hc] at hg
        rcases List.mem_cons.mp hg with h | h
        · subst h
          intro hmem
          rcases List.mem_cons.mp hmem with h | h
          · exact hc h.symm
          · exact ih g2 (h2 ▸ List.mem_cons_self g2 gs2) h
        · exact ih g (h2 ▸ List.mem_cons_of_mem g2 h)

theorem joinSlash_eq_nil_iff (N : List (List Char)) (h : ∀ g ∈ N, g ≠ []) :
    joinSlash N = [] ↔ N = [] := by
  cases N with
  | nil => simp [joinSlash]
  | cons g N2 =>
    cases N2 with
    | nil =>
      simp only [joinSlash]
      exact ⟨fun e => absurd e (h g (List.mem_cons_self g [])), fun e => by cases e⟩
    | cons g2 N3 =>
      simp only [joinSlash]
      constructor
      · intro e
        exact absurd (List.append_eq_nil.mp e).2 (by simp)
      · intro e; cases e

theorem splitSlash_joinSlash (N : List (List Char)) (hne : N ≠ [])
    (h : ∀ g ∈ N, g ≠ [] ∧ '/' ∉ g) :
    splitSlash (joinSlash N) = N := by
  induction N with
  | nil => exact absurd rfl hne
  | cons g N ih =>
    cases N with
    | nil =>
      exact splitSlash_of_noslash g (h g (List.mem_cons_self g [])).2
    | cons g2 N2 =>
      show splitSlash (g ++ '/' :: joinSlash (g2 :: N2)) = g :: g2 :: N2
      rw [splitSlash_append, splitSlash_of_noslash g (h g (List.mem_cons_self _ _)).2,
        ih (by simp) (fun x hx => h x (List.mem_cons_of_mem _ hx))]
      rfl

theorem isAbsL_append (l x : List Char) (h : l ≠ []) : isAbsL (l ++ x) = isAbsL l := by
  cases l with
  | nil => exact absurd rfl h
  | cons c t => rfl

theorem isAbsL_joinSlash (N : List (List Char)) (h : ∀ g ∈ N, g ≠ [] ∧ '/' ∉ g) :
    isAbsL (joinSlash N) = false := by
  cases N with
  | nil => rfl
  | cons g N2 =>
    have hg := h g (List.mem_cons_self g N2)
    have hhead : ∀ t : List Char, isAbsL (g ++ t) = false := by
      intro t
      cases g with
      | nil => exact absurd rfl hg.1
      | cons c g' =>
        have hc : c ≠ '/' := fun e => hg.2 (e ▸ List.mem_cons_self c g')
        simp [isAbsL, hc]
    cases N2 with
    | nil =>
      have := hhead []
      simpa using this
    | cons g2 N3 => exact hhead ('/' :: joinSlash (g2 :: N3))

/-! ### Lemmas about `normStep` folds -/

theorem normStep_nilseg (allow : Bool) (acc : List (List Char)) :
    normStep allow acc [] = acc := by
  simp [normStep]

theorem normStep_dotseg (allow : Bool) (acc : List (List Char)) :
    normStep allow acc ['.'] = acc := by
  simp [normStep]

theorem normStep_plain (allow : Bool) (acc : List (List Char)) (g : List Char)
    (h1 : g ≠ []) (h2 : g ≠ ['.']) (h3 : g ≠ ['.', '.']) :
    normStep allow acc g = g :: acc := by
  simp [normStep, h1, h2, h3]

def segOk (st : List (List Char)) : Prop := ∀ g ∈ st, g ≠ [] ∧ g ≠ ['.']

theorem segOk_nil : segOk [] := by
  intro g hg; cases hg

theorem normStep_true_segOk (st : List (List Char)) (g : List Char) (h : segOk st) :
    segOk (normStep true st g) := by
  by_cases h1 : g = [] ∨ g = ['.']
  · simpa [normStep, h1] using h
  · by_cases h2 : g = ['.', '.']
    · subst h2
      cases st with
      | nil =>
        have e : normStep true [] ['.', '.'] = [['.', '.']] := by simp [normStep]
        rw [e]
        intro x hx
        rcases List.mem_cons.mp hx with hx | hx
        · simp [hx]
        · cases hx
      | cons hd tl =>
        by_cases h3 : hd = ['.', '.']
        · have e : normStep true (hd :: tl) ['.', '.'] = ['.', '.'] :: hd :: tl := by
            simp [normStep, h3]
          rw [e]
          intro x hx
          rcases List.mem_cons.mp hx with hx | hx
          · simp [hx]
          · exact h x hx
        · have e : normStep true (hd :: tl) ['.', '.'] = tl := by
            simp [normStep, h3]
          rw [e]
          intro x hx
          exact h x (List.mem_cons_of_mem hd hx)
    · push_neg at h1
      rw [normStep_plain true st g h1.1 h1.2 h2]
      intro x hx
      rcases List.mem_cons.mp hx with hx | hx
      · exact hx ▸ ⟨h1.1, h1.2⟩
      · exact h x hx

theorem foldl_normStep_one (a2 : Bool) (acc st : List (List Char)) (g : List Char)
    (hst : segOk st) :
    List.foldl (normStep a2) acc (normStep true st g).reverse
      = normStep a2 (List.foldl (normStep a2) acc st.reverse) g := by
  by_cases h1 : g = [] ∨ g = ['.']
  · have e1 : normStep true st g = st := by
      rcases h1 with h | h <;> simp [normStep, h]
    have e2 : normStep a2 (List.foldl (normStep a2) acc st.reverse) g
        = List.foldl (normStep a2) acc st.reverse := by
      rcases h1 with h | h <;> simp [normStep, h]
    rw [e1, e2]
  · push_neg at h1
    by_cases h2 : g = ['.', '.']
    · subst h2
      cases st with
      | nil =>
        have e : normStep true [] ['.', '.'] = [['.', '.']] := by simp [normStep]
        rw [e]
        rfl
      | cons hd tl =>
        by_cases h3 : hd = ['.', '.']
        · have e : normStep true (hd :: tl) ['.', '.'] = ['.', '.'] :: hd :: tl := by
            simp [normStep, h3]
          rw [e, List.reverse_cons, List.foldl_append]
          rfl
        · have e : normStep true (hd :: tl) ['.', '.'] = tl := by
            simp [normStep, h3]
          rw [e, List.reverse_cons, List.foldl_append]
          have hhd := hst hd (List.mem_cons_self hd tl)
          have ehd : List.foldl (normStep a2) (List.foldl (normStep a2) acc tl.reverse) [hd]
              = hd :: List.foldl (normStep a2) acc tl.reverse := by
            show normStep a2 (List.foldl (normStep a2) acc tl.reverse) hd
              = hd :: List.foldl (normStep a2) acc tl.reverse
            exact normStep_plain a2 _ hd hhd.1 hhd.2 h3
          rw [ehd]
          have epop : normStep a2 (hd :: List.foldl (normStep a2) acc tl.reverse) ['.', '.']
              = List.foldl (normStep a2) acc tl.reverse := by
            simp [normStep, h3]
          rw [epop]
    · have e : normStep true st g = g :: st := normStep_plain true st g h1.1 h1.2 h2
      rw [e, List.reverse_cons, List.foldl_append]
      rfl

theorem foldl_normStep_comp (a2 : Bool) (gs : List (List Char)) :
    ∀ st acc : List (List Char), segOk st →
      List.foldl (normStep a2) acc (List.foldl (normStep true) st gs).reverse
        = List.foldl (normStep a2) (List.foldl (normStep a2) acc st.reverse) gs := by
  induction gs with
  | nil => intro st acc _; rfl
  | cons g gs ih =>
    intro st acc h
    have h' : segOk (normStep true st g) := normStep_true_segOk st g h
    calc List.foldl (normStep a2) acc (List.foldl (normStep true) (normStep true st g) gs).reverse
        = List.foldl (normStep a2)
            (List.foldl (normStep a2) acc (normStep true st g).reverse) gs := ih _ acc h'
      _ = List.foldl (normStep a2)
            (normStep a2 (List.foldl (normStep a2) acc st.reverse) g) gs := by
            rw [foldl_normStep_one a2 acc st g h]

theorem foldl_normComps (a2 : Bool) (gs acc : List (List Char)) :
    List.foldl (normStep a2) acc (normComps true gs) = List.foldl (normStep a2) acc gs := by
  have := foldl_normStep_comp a2 gs [] acc segOk_nil
  simpa [normComps] using this

def goodSeg (g : List Char) : Prop := g ≠ [] ∧ g ≠ ['.'] ∧ '/' ∉ g

theorem normStep_good (allow : Bool) (st : List (List Char)) (g : List Char)
    (hg : '/' ∉ g) (hst : ∀ x ∈ st, goodSeg x) :
    ∀ x ∈ normStep allow st g, goodSeg x := by
  by_cases h1 : g = [] ∨ g = ['.']
  · have e : normStep allow st g = st := by
      rcases h1 with h | h <;> simp [normStep, h]
    rw [e]; exact hst
  · push_neg at h1
    by_cases h2 : g = ['.', '.']
    · subst h2
      cases st with
      | nil =>
        intro x hx
        have e : normStep allow [] ['.', '.'] = if allow then [['.', '.']] else [] := by
          simp [normStep]
        rw [e] at hx
        cases allow with
        | false => simp at hx
        | true =>
          simp at hx
          exact hx ▸ ⟨by simp, by simp, by simp⟩
      | cons hd tl =>
        by_cases h3 : hd = ['.', '.']
        · have e : normStep allow (hd :: tl) ['.', '.']
              = if allow then ['.', '.'] :: hd :: tl else hd :: tl := by
            simp [normStep, h3]
          rw [e]
          cases allow with
          | false => simpa using hst
          | true =>
            intro x hx
            rcases List.mem_cons.mp hx with hx | hx
            · exact hx ▸ ⟨by simp, by simp, by simp⟩
            · exact hst x hx
        · have e : normStep allow (hd :: tl) ['.', '.'] = tl := by simp [normStep, h3]
          rw [e]
          intro x hx
          exact hst x (List.mem_cons_of_mem hd hx)
    · rw [normStep_plain allow st g h1.1 h1.2 h2]
      intro x hx
      rcases List.mem_cons.mp hx with hx | hx
      · exact hx ▸ ⟨h1.1, h1.2, hg⟩
      · exact hst x hx

theorem foldl_good (allow : Bool) (gs : List (List Char)) :
    ∀ st, (∀ x ∈ gs, '/' ∉ x) → (∀ x ∈ st, goodSeg x) →
      ∀ x ∈ List.foldl (normStep allow) st gs, goodSeg x := by
  induction gs with
  | nil => intro st _ hst; exact hst
  | cons g gs ih =>
    intro st hgs hst
    exact ih (normStep allow st g)
      (fun x hx => hgs x (List.mem_cons_of_mem g hx))
      (normStep_good allow st g (hgs g (List.mem_cons_self g gs)) hst)

theorem normStep_false_noDD (st : List (List Char)) (g : List Char)
    (hst : ∀ x ∈ st, x ≠ ['.', '.']) :
    ∀ x ∈ normStep false st g, x ≠ ['.', '.'] := by
  by_cases h1 : g = [] ∨ g = ['.']
  · have e : normStep false st g = st := by
      rcases h1 with h | h <;> simp [normStep, h]
    rw [e]; exact hst
  · push_neg at h1
    by_cases h2 : g = ['.', '.']
    · subst h2
      cases st with
      | nil =>
        have e : normStep false [] ['.', '.'] = [] := by simp [normStep]
        rw [e]; intro x hx; cases hx
      | cons hd tl =>
        by_cases h3 : hd = ['.', '.']
        · have e : normStep false (hd :: tl) ['.', '.'] = hd :: tl := by
            simp [normStep, h3]
          rw [e]; exact hst
        · have e : normStep false (hd :: tl) ['.', '.'] = tl := by simp [normStep, h3]
          rw [e]
          intro x hx
          exact hst x (List.mem_cons_of_mem hd hx)
    · rw [normStep_plain false st g h1.1 h1.2 h2]
      intro x hx
      rcases List.mem_cons.mp hx with hx | hx
      · exact hx ▸ h2
      · exact hst x hx

theorem foldl_false_noDD (gs : List (List Char)) :
    ∀ st, (∀ x ∈ st, x ≠ ['.', '.']) →
      ∀ x ∈ List.foldl (normStep false) st gs, x ≠ ['.', '.'] := by
  induction gs with
  | nil => intro st hst; exact hst
  | cons g gs ih =>
    intro st hst
    exact ih (normStep false st g) (normStep_false_noDD st g hst)

theorem foldl_plain (allow : Bool) (P : List (List Char)) :
    (∀ g ∈ P, g ≠ [] ∧ g ≠ ['.'] ∧ g ≠ ['.', '.']) →
      ∀ acc, List.foldl (normStep allow) acc P = P.reverse ++ acc := by
  induction P with
  | nil => intro _ acc; simp
  | cons g P ih =>
    intro h acc
    have hg := h g (List.mem_cons_self g P)
    show List.foldl (normStep allow) (normStep allow acc g) P = (g :: P).reverse ++ acc
    rw [normStep_plain allow acc g hg.1 hg.2.1 hg.2.2,
      ih (fun x hx => h x (List.mem_cons_of_mem _ hx)) (g :: acc),
      List.reverse_cons, List.append_assoc]
    rfl

/-! ### Facts about `normalizeL` and `resolveL` -/

theorem normComps_good (allow : Bool) (s : List Char) :
    ∀ x ∈ normComps allow (splitSlash s), goodSeg x := by
  intro x hx
  rw [normComps, List.mem_reverse] at hx
  exact foldl_good allow (splitSlash s) [] (splitSlash_mem_noslash s)
    (fun y hy => absurd hy (List.not_mem_nil y)) x hx

theorem normComps_false_plain (s : List Char) :
    ∀ x ∈ normComps false (splitSlash s), x ≠ [] ∧ x ≠ ['.'] ∧ x ≠ ['.', '.'] := by
  intro x hx
  rw [normComps, List.mem_reverse] at hx
  have hg := foldl_good false (splitSlash s) [] (splitSlash_mem_noslash s)
    (fun y hy => absurd hy (List.not_mem_nil y)) x hx
  have hd := foldl_false_noDD (splitSlash s) []
    (fun y hy => absurd hy (List.not_mem_nil y)) x hx
  exact ⟨hg.1, hg.2.1, hd⟩

theorem normalizeL_ne_nil (s : List Char) : normalizeL s ≠ [] := by
  simp only [normalizeL]
  split_ifs <;> simp_all

theorem isAbsL_core_append (N : List (List Char)) (x : List Char)
    (hN : N ≠ []) (hmem : ∀ g ∈ N, g ≠ [] ∧ '/' ∉ g) :
    isAbsL (joinSlash N ++ x) = false := by
  have h1 : joinSlash N ≠ [] :=
    fun e => hN ((joinSlash_eq_nil_iff N (fun g hg => (hmem g hg).1)).mp e)
  rw [isAbsL_append _ _ h1, isAbsL_joinSlash N hmem]

theorem isAbsL_normalizeL (s : List Char) : isAbsL (normalizeL s) = isAbsL s := by
  simp only [normalizeL]
  cases habs : isAbsL s with
  | true =>
    simp only [Bool.not_true]
    by_cases h1 : joinSlash (normComps false (splitSlash s)) = []
    · rw [if_pos h1]; simp [isAbsL]
    · rw [if_neg h1]; simp [isAbsL]
  | false =>
    simp only [Bool.not_false]
    have hmem : ∀ g ∈ normComps true (splitSlash s), g ≠ [] ∧ '/' ∉ g :=
      fun g hg => ⟨(normComps_good true s g hg).1, (normComps_good true s g hg).2.2⟩
    by_cases h1 : joinSlash (normComps true (splitSlash s)) = []
    · rw [if_pos h1]
      cases htr : hasTrailSlash s <;> simp [isAbsL]
    · rw [if_neg h1]
      have hN : normComps true (splitSlash s) ≠ [] := fun e => h1 (by rw [e]; rfl)
      simp only [Bool.false_eq_true, if_false]
      exact isAbsL_core_append _ _ hN hmem

theorem resolveL_eq_core (cwd x : List Char) (hx_abs : isAbsL x = false) (hx_ne : x ≠ []) :
    resolveL cwd x =
      (if isAbsL cwd then
        '/' :: joinSlash (normComps (!isAbsL cwd) (splitSlash (cwd ++ '/' :: x)))
      else if joinSlash (normComps (!isAbsL cwd) (splitSlash (cwd ++ '/' :: x))) = [] then ['.']
      else joinSlash (normComps (!isAbsL cwd) (splitSlash (cwd ++ '/' :: x)))) := by
  simp [resolveL, hx_abs, hx_ne]

theorem resolveL_nil (cwd : List Char) :
    resolveL cwd [] =
      (if isAbsL cwd then
        '/' :: joinSlash (normComps (!isAbsL cwd) (splitSlash cwd))
      else if joinSlash (normComps (!isAbsL cwd) (splitSlash cwd)) = [] then ['.']
      else joinSlash (normComps (!isAbsL cwd) (splitSlash cwd))) := by
  simp [resolveL, isAbsL]

theorem resolveL_abs (cwd x : List Char) (h : isAbsL x = true) :
    resolveL cwd x = '/' :: joinSlash (normComps false (splitSlash x)) := by
  simp [resolveL, h]

theorem foldl_normStep_dotonly (allow : Bool) (X : List (List Char)) :
    List.foldl (normStep allow) X [['.']] = X := by
  simp [normStep_dotseg]

theorem foldl_normStep_nilonly (allow : Bool) (X : List (List Char)) :
    List.foldl (normStep allow) X [[]] = X := by
  simp [normStep_nilseg]

/-- Resolving a normalized path gives the same result as resolving the path
itself: `posix.normalize` changes nothing that `posix.resolve` observes. -/
theorem resolveL_normalizeL (cwd s : List Char) :
    resolveL cwd (normalizeL s) = resolveL cwd s := by
  cases habs : isAbsL s with
  | true =>
    have habs' : isAbsL (normalizeL s) = true := by rw [isAbsL_normalizeL, habs]
    rw [resolveL_abs cwd (normalizeL s) habs', resolveL_abs cwd s habs]
    have hplain := normComps_false_plain s
    have hmem : ∀ g ∈ normComps false (splitSlash s), g ≠ [] ∧ '/' ∉ g :=
      fun g hg => ⟨(normComps_good false s g hg).1, (normComps_good false s g hg).2.2⟩
    have key : normComps false (splitSlash (normalizeL s)) = normComps false (splitSlash s) := by
      by_cases hN : normComps false (splitSlash s) = []
      · have e1 : normalizeL s = ['/'] := by simp [normalizeL, habs, hN, joinSlash]
        rw [e1, show normComps false (splitSlash ['/']) = [] from rfl, hN]
      · have hj : joinSlash (normComps false (splitSlash s)) ≠ [] :=
          fun e => hN ((joinSlash_eq_nil_iff _ (fun g hg => (hmem g hg).1)).mp e)
        cases htr : hasTrailSlash s with
        | false =>
          have e1 : normalizeL s = '/' :: joinSlash (normComps false (splitSlash s)) := by
            simp [normalizeL, habs, hj, htr]
          rw [e1, splitSlash_cons_slash, splitSlash_joinSlash _ hN hmem]
          show (List.foldl (normStep false) []
            ([] :: normComps false (splitSlash s))).reverse = normComps false (splitSlash s)
          rw [List.foldl_cons, normStep_nilseg, foldl_plain false _ hplain []]
          simp
        | true =>
          have e1 : normalizeL s
              = '/' :: (joinSlash (normComps false (splitSlash s)) ++ ['/']) := by
            simp [normalizeL, habs, hj, htr]
          rw [e1, splitSlash_cons_slash, splitSlash_append, splitSlash_joinSlash _ hN hmem]
          show (List.foldl (normStep false) []
              ([] :: (normComps false (splitSlash s) ++ [[]]))).reverse
            = normComps false (splitSlash s)
          rw [List.foldl_cons, normStep_nilseg, List.foldl_append,
            foldl_plain false _ hplain [], foldl_normStep_nilonly]
          simp
    rw [key]
  | false =>
    have hn_abs : isAbsL (normalizeL s) = false := by rw [isAbsL_normalizeL, habs]
    have hn_ne : normalizeL s ≠ [] := normalizeL_ne_nil s
    by_cases hs : s = []
    · subst hs
      rw [show normalizeL [] = ['.'] from rfl,
        resolveL_eq_core cwd ['.'] rfl (by simp), resolveL_nil cwd]
      have key0 : normComps (!isAbsL cwd) (splitSlash (cwd ++ '/' :: ['.']))
          = normComps (!isAbsL cwd) (splitSlash cwd) := by
        unfold normComps
        rw [splitSlash_append, List.foldl_append,
          show splitSlash ['.'] = [['.']] from rfl, foldl_normStep_dotonly]
      rw [key0]
    · rw [resolveL_eq_core cwd (normalizeL s) hn_abs hn_ne, resolveL_eq_core cwd s habs hs]
      have hmem1 : ∀ g ∈ normComps true (splitSlash s), g ≠ [] ∧ '/' ∉ g :=
        fun g hg => ⟨(normComps_good true s g hg).1, (normComps_good true s g hg).2.2⟩
      have key2 : List.foldl (normStep (!isAbsL cwd))
            (List.foldl (normStep (!isAbsL cwd)) [] (splitSlash cwd))
            (splitSlash (normalizeL s))
          = List.foldl (normStep (!isAbsL cwd))
            (List.foldl (normStep (!isAbsL cwd)) [] (splitSlash cwd))
            (splitSlash s) := by
        by_cases hN : normComps true (splitSlash s) = []
        · have hjoin : joinSlash (normComps true (splitSlash s)) = [] := by
            rw [hN]; rfl
          have hRHS : List.foldl (normStep (!isAbsL cwd))
                (List.foldl (normStep (!isAbsL cwd)) [] (splitSlash cwd)) (splitSlash s)
              = List.foldl (normStep (!isAbsL cwd)) [] (splitSlash cwd) := by
            rw [← foldl_normComps (!isAbsL cwd) (splitSlash s), hN]
            rfl
          cases htr : hasTrailSlash s with
          | false =>
            have e1 : normalizeL s = ['.'] := by simp [normalizeL, habs, hjoin, htr]
            rw [e1, show splitSlash ['.'] = [['.']] from rfl, foldl_normStep_dotonly, hRHS]
          | true =>
            have e1 : normalizeL s = ['.', '/'] := by simp [normalizeL, habs, hjoin, htr]
            rw [e1, show splitSlash ['.', '/'] = [['.'], []] from rfl, hRHS]
            simp [normStep_dotseg, normStep_nilseg]
        · have hjoin : joinSlash (normComps true (splitSlash s)) ≠ [] :=
            fun e => hN ((joinSlash_eq_nil_iff _ (fun g hg => (hmem1 g hg).1)).mp e)
          cases htr : hasTrailSlash s with
          | false =>
            have e1 : normalizeL s = joinSlash (normComps true (splitSlash s)) := by
              simp [normalizeL, habs, hjoin, htr]
            rw [e1, splitSlash_joinSlash _ hN hmem1, foldl_normComps]
          | true =>
            have e1 : normalizeL s = joinSlash (normComps true (splitSlash s)) ++ ['/'] := by
              simp [normalizeL, habs, hjoin, htr]
            rw [e1, splitSlash_append, splitSlash_joinSlash _ hN hmem1,
              show splitSlash ([] : List Char) = [[]] from rfl, List.foldl_append,
              foldl_normStep_nilonly, foldl_normComps]
      have key : normComps (!isAbsL cwd) (splitSlash (cwd ++ '/' :: normalizeL s))
          = normComps (!isAbsL cwd) (splitSlash (cwd ++ '/' :: s)) := by
        unfold normComps
        rw [splitSlash_append, splitSlash_append, List.foldl_append, List.foldl_append, key2]
      rw [key]

theorem relativeL_congr (cwd a1 a2 b : List Char) (h : resolveL cwd a1 = resolveL cwd a2) :
    relativeL cwd a1 b = relativeL cwd a2 b := by
  unfold relativeL
  by_cases h1 : a1 = b <;> by_cases h2 : a2 = b
  · rw [if_pos h1, if_pos h2]
  · rw [if_pos h1, if_neg h2]
    have he : resolveL cwd a2 = resolveL cwd b := by rw [← h, h1]
    simp [he]
  · rw [if_neg h1, if_pos h2]
    have he : resolveL cwd a1 = resolveL cwd b := by rw [h, h2]
    simp [he]
  · rw [if_neg h1, if_neg h2, h]

theorem toList_asString (l : List Char) : (List.asString l).toList = l := rfl

/-! ### Shared helper lemmas about the manager commands -/

theorem contains_ext_of (f : String) (h : extname f = ".html" ∨ extname f = ".php") :
    ([".html", ".php"].contains (extname f)) = true := by
  rcases h with h | h <;> rw [h] <;> rfl

theorem getWebTestCommand_ok_branch (cwd : String) (m : ChromiumTestManager) (f : String)
    (h : ([".html", ".php"].contains (extname f)) = true) :
    getWebTestCommand cwd m f =
      .ok (pathJoin ["third_party", "blink", "tools", "run_web_tests.py"]
        ++ " -t " ++ m.compileTarget ++ " "
        ++ pathRelative cwd (pathJoin [m.rootDir, "third_party", "blink", "web_tests"]) f) := by
  unfold getWebTestCommand
  rw [h]
  rfl

/-! ### The claims -/

/-- C1: for every manager and every file path whose extension is `.html` or
`.php`, `getWebTestCommand` returns the string
`third_party/blink/tools/run_web_tests.py -t <compileTarget> <test_path>`,
where `<test_path>` is the relative path from the directory
`rootDir/third_party/blink/web_tests` to the file. -/
theorem getWebTestCommand_spec_c1 (cwd : String) (m : ChromiumTestManager) (f : String)
    (h : extname f = ".html" ∨ extname f = ".php") :
    getWebTestCommand cwd m f =
      .ok ("third_party/blink/tools/run_web_tests.py -t " ++ m.compileTarget ++ " "
        ++ pathRelative cwd (pathJoin [m.rootDir, "third_party", "blink", "web_tests"]) f) := by
  rw [getWebTestCommand_ok_branch cwd m f (contains_ext_of f h)]
  rw [show pathJoin ["third_party", "blink", "tools", "run_web_tests.py"]
      = "third_party/blink/tools/run_web_tests.py" from by decide]
  rw [show ("third_party/blink/tools/run_web_tests.py" ++ " -t " : String)
      = "third_party/blink/tools/run_web_tests.py -t " from by decide]

/-- Witness for C1 at a concrete manager and file. -/
theorem getWebTestCommand_spec_c1_w :
    getWebTestCommand "/" ⟨"/c/src", "Default"⟩ "/c/src/third_party/blink/web_tests/a/b.html"
      = .ok ("third_party/blink/tools/run_web_tests.py -t " ++ "Default" ++ " "
        ++ pathRelative "/" (pathJoin ["/c/src", "third_party", "blink", "web_tests"])
            "/c/src/third_party/blink/web_tests/a/b.html") :=
  getWebTestCommand_spec_c1 "/" ⟨"/c/src", "Default"⟩
    "/c/src/third_party/blink/web_tests/a/b.html" (Or.inl (by decide))

/-- C2 counterexample: the path `/tests/.html` ends in `.html`, yet
`getWebTestCommand` throws, because `path.extname` of a dot-file is empty. -/
theorem getWebTestCommand_endsHtml_error_c2 :
    (String.toList ".html").isSuffixOf (String.toList "/tests/.html") = true ∧
    extname "/tests/.html" = "" ∧
    isOkB (getWebTestCommand "/" ⟨"/c/src", "Default"⟩ "/tests/.html") = false :=
  ⟨by decide, by decide, by decide⟩

/-- C2 (amended): `getWebTestCommand` succeeds exactly when
`path.extname` of the file is `.html` or `.php`; merely ending in `.html`
is not enough when the basename is a dot-file. -/
theorem getWebTestCommand_ok_iff_c2 (cwd : String) (m : ChromiumTestManager) (f : String) :
    isOkB (getWebTestCommand cwd m f) = [".html", ".php"].contains (extname f) := by
  unfold getWebTestCommand
  cases hc : [".html", ".php"].contains (extname f) with
  | false => simp [isOkB]
  | true => simp [isOkB]

/-- C3: when the current file has a valid web-test extension,
`getTestCommand` is the compile command for content_shell, `" && "`, and the
web-test command of the current file. -/
theorem getTestCommand_concat_c3 (cwd : String) (m : ChromiumTestManager) (f : String)
    (h : extname f = ".html" ∨ extname f = ".php") :
    isOkB (getWebTestCommand cwd m f) = true ∧
    getTestCommand cwd (some f) m =
      .ok (getCompileCommand m "content_shell" ++ " && "
        ++ okStr (getWebTestCommand cwd m f)) := by
  have hok := getWebTestCommand_ok_branch cwd m f (contains_ext_of f h)
  constructor
  · rw [hok]; rfl
  · have hdo : getTestCommand cwd (some f) m
        = Except.bind (getWebTestCommand cwd m f)
          (fun w => Except.pure (getCompileCommand m "content_shell" ++ " && " ++ w)) := rfl
    rw [hdo, hok]
    rfl

/-- Witness for C3 at a concrete manager and file. -/
theorem getTestCommand_concat_c3_w :
    isOkB (getWebTestCommand "/" ⟨"/c/src", "Default"⟩
        "/c/src/third_party/blink/web_tests/a.html") = true ∧
    getTestCommand "/" (some "/c/src/third_party/blink/web_tests/a.html")
        ⟨"/c/src", "Default"⟩
      = .ok (getCompileCommand ⟨"/c/src", "Default"⟩ "content_shell" ++ " && "
        ++ okStr (getWebTestCommand "/" ⟨"/c/src", "Default"⟩
            "/c/src/third_party/blink/web_tests/a.html")) :=
  getTestCommand_concat_c3 "/" ⟨"/c/src", "Default"⟩
    "/c/src/third_party/blink/web_tests/a.html" (Or.inl (by decide))

/-- C4: `getCompileCommand` returns exactly
`autoninja -C out/<compileTarget> <target_binary>`. -/
theorem getCompileCommand_spec_c4 (m : ChromiumTestManager) (target_binary : String) :
    getCompileCommand m target_binary
      = "autoninja -C out/" ++ m.compileTarget ++ " " ++ target_binary := rfl

/-- C5: `getCppTestCommand` returns the joined executable path followed by
the gtest filter; as a total function it never throws. -/
theorem getCppTestCommand_spec_c5 (m : ChromiumTestManager) (test_executable test_name : String) :
    getCppTestCommand m test_executable test_name
      = pathJoin [m.rootDir, "out", m.compileTarget, test_executable]
        ++ " --gtest_filter=" ++ test_name := rfl

/-- C6: the manager state is exactly the two string fields (two managers
with equal fields are equal), and every operation returns the receiver
unchanged, also on throwing paths. -/
theorem manager_state_frame_c6 :
    (∀ m1 m2 : ChromiumTestManager,
      m1.rootDir = m2.rootDir → m1.compileTarget = m2.compileTarget → m1 = m2) ∧
    (∀ m b, (getCompileCommandS m b).2 = m) ∧
    (∀ cwd m f, (getWebTestCommandS cwd m f).2 = m) ∧
    (∀ m e t, (getCppTestCommandS m e t).2 = m) ∧
    (∀ cwd ed m, (getTestCommandS cwd ed m).2 = m) := by
  refine ⟨?_, fun _ _ => rfl, fun _ _ _ => rfl, fun _ _ _ => rfl, fun _ _ _ => rfl⟩
  intro m1 m2 h1 h2
  cases m1; cases m2
  simp_all

/-- Witness for C6 at a concrete manager. -/
theorem manager_state_frame_c6_w :
    (⟨"/c/src", "Default"⟩ : ChromiumTestManager) = ⟨"/c/src", "Default"⟩ ∧
    (getCompileCommandS ⟨"/c/src", "Default"⟩ "content_shell").2 = ⟨"/c/src", "Default"⟩ :=
  ⟨manager_state_frame_c6.1 ⟨"/c/src", "Default"⟩ ⟨"/c/src", "Default"⟩ rfl rfl,
    manager_state_frame_c6.2.1 ⟨"/c/src", "Default"⟩ "content_shell"⟩

/-- C7 counterexample: with a relative `rootDir`, `getWebTestCommand`
depends on the process working directory, because `path.relative` resolves
both paths against `process.cwd()`; the claim that the result depends on
nothing but rootDir, compileTarget and the file path is therefore false. -/
theorem webTestCommand_cwd_dependent_c7 :
    isOkB (getWebTestCommand "/" ⟨"src", "Default"⟩ "/x/a.html") = true ∧
    isOkB (getWebTestCommand "/a/b" ⟨"src", "Default"⟩ "/x/a.html") = true ∧
    okStr (getWebTestCommand "/" ⟨"src", "Default"⟩ "/x/a.html")
      ≠ okStr (getWebTestCommand "/a/b" ⟨"src", "Default"⟩ "/x/a.html") :=
  ⟨by decide, by decide, by decide⟩

/-- C7 (amended): with the same working directory, the three command
builders are deterministic functions of rootDir, compileTarget and their
arguments. -/
theorem commands_det_same_cwd_c7 (cwd : String) (m1 m2 : ChromiumTestManager)
    (h1 : m1.rootDir = m2.rootDir) (h2 : m1.compileTarget = m2.compileTarget) :
    (∀ b, getCompileCommand m1 b = getCompileCommand m2 b) ∧
    (∀ f, getWebTestCommand cwd m1 f = getWebTestCommand cwd m2 f) ∧
    (∀ e t, getCppTestCommand m1 e t = getCppTestCommand m2 e t) := by
  have hm : m1 = m2 := by cases m1; cases m2; simp_all
  subst hm
  exact ⟨fun _ => rfl, fun _ => rfl, fun _ _ => rfl⟩

/-- Witness for C7 at a concrete pair of managers with equal fields. -/
theorem commands_det_same_cwd_c7_w :
    getWebTestCommand "/" (⟨"/c/src", "Default"⟩ : ChromiumTestManager) "a.html"
      = getWebTestCommand "/" ⟨"/c/src", "Default"⟩ "a.html" :=
  (commands_det_same_cwd_c7 "/" ⟨"/c/src", "Default"⟩ ⟨"/c/src", "Default"⟩ rfl rfl).2.1 "a.html"

/-- C8: a command wrapped by `wrapException` (resp. `wrap_exception`) always
returns normally; a thrown value is reported through `log` with the
`vscode-chromium-test` message. -/
theorem wrapException_total_c8 :
    (∀ f : Except String Unit,
      isOkB (wrapException f) = true ∧ isOkB (wrap_exception f) = true) ∧
    (∀ u : Unit, wrapException (.ok u) = .ok (u, []) ∧ wrap_exception (.ok u) = .ok (u, [])) ∧
    (∀ e : String,
      wrapException (.error e) = .ok ((), ["vscode-chromium-test error: " ++ e]) ∧
      wrap_exception (.error e) = .ok ((), ["vscode-chromium-test: " ++ e])) := by
  refine ⟨fun f => ?_, fun u => ⟨rfl, rfl⟩, fun e => ⟨rfl, rfl⟩⟩
  cases f <;> exact ⟨rfl, rfl⟩

/-- C9: the `path.join` implementation of `getWebTestCommand` and the
`array.join(path.sep)` implementation return the same command string for a
normalized `rootDir` and a file with a valid web-test extension. -/
theorem webTest_impls_agree_c9 (cwd : String) (m : ChromiumTestManager) (f : String)
    (hroot : normalizeStr m.rootDir = m.rootDir)
    (hext : extname f = ".html" ∨ extname f = ".php") :
    getWebTestCommand cwd m f = .ok (getWebTestCommandV0 cwd m f) := by
  have hr : normalizeL m.rootDir.toList = m.rootDir.toList := by
    have h2 := congrArg String.toList hroot
    rw [normalizeStr, toList_asString] at h2
    exact h2
  have hrne : m.rootDir.toList ≠ [] := by
    intro e
    rw [e] at hr
    exact absurd hr (by decide)
  rw [getWebTestCommand_ok_branch cwd m f (contains_ext_of f hext)]
  simp only [getWebTestCommandV0]
  rw [show pathJoin ["third_party", "blink", "tools", "run_web_tests.py"]
      = sepJoin ["third_party", "blink", "tools", "run_web_tests.py"] from by decide]
  have hrel : pathRelative cwd (pathJoin [m.rootDir, "third_party", "blink", "web_tests"]) f
      = pathRelative cwd (sepJoin [m.rootDir, "third_party", "blink", "web_tests"]) f := by
    unfold pathRelative pathJoin sepJoin
    rw [toList_asString, toList_asString]
    apply congrArg
    apply relativeL_congr
    have hfilter : ([m.rootDir.toList, "third_party".toList, "blink".toList,
          "web_tests".toList].filter (fun g => g ≠ []))
        = [m.rootDir.toList, "third_party".toList, "blink".toList, "web_tests".toList] := by
      have hrne2 : m.rootDir.data ≠ [] := hrne
      simp [List.filter, hrne2]
    have hjoined : joinSlash [m.rootDir.toList, "third_party".toList, "blink".toList,
        "web_tests".toList] ≠ [] := by
      show m.rootDir.toList ++ '/' :: joinSlash ["third_party".toList, "blink".toList,
        "web_tests".toList] ≠ []
      simp
    have hjl : joinL ([m.rootDir, "third_party", "blink", "web_tests"].map String.toList)
        = normalizeL (joinSlash ([m.rootDir, "third_party", "blink",
            "web_tests"].map String.toList)) := by
      unfold joinL
      rw [show [m.rootDir, "third_party", "blink", "web_tests"].map String.toList
          = [m.rootDir.toList, "third_party".toList, "blink".toList, "web_tests".toList]
          from rfl, hfilter, if_neg hjoined]
    rw [hjl]
    exact resolveL_normalizeL cwd.toList _
  rw [hrel]

/-- Witness for C9 at a concrete normalized manager and file. -/
theorem webTest_impls_agree_c9_w :
    getWebTestCommand "/" ⟨"/c/src", "Default"⟩ "/c/src/third_party/blink/web_tests/a.html"
      = .ok (getWebTestCommandV0 "/" ⟨"/c/src", "Default"⟩
          "/c/src/third_party/blink/web_tests/a.html") :=
  webTest_impls_agree_c9 "/" ⟨"/c/src", "Default"⟩
    "/c/src/third_party/blink/web_tests/a.html" (by decide) (Or.inl (by decide))

/-- C10: `getBrowserTestCommand` is the constant empty string and, being a
total function, never throws. -/
theorem getBrowserTestCommand_empty_c10 (m : ChromiumTestManager) (f : String) :
    getBrowserTestCommand m f = "" := rfl
